import Mathlib

/-!
Verification of the go-read-burn core: the identifier/cipher component
(`internal/crypto/crypto.go`, AES-256-GCM variant) and the storage component
(`internal/storage/storage.go`), shallowly embedded in Lean.

Go strings and byte slices are both modelled as `List Nat` of byte values
(`Bytes`).  Library primitives that are not part of this repository
(scrypt, the AES-GCM AEAD of Go's `crypto/cipher`, `encoding/json`) are
modelled from the specification's stated contract, with concrete executable
definitions; everything else is a direct translation of the Go source.
-/

set_option autoImplicit false

namespace ReadBurn

/-- Byte strings: Go `string` and `[]byte` values as lists of byte values. -/
abbrev Bytes := List Nat

/-- Big-endian interpretation of a byte string as a natural number
(`math/big` `SetBytes` in the Go source). -/
def natOfBytesBE (bs : Bytes) : Nat :=
  bs.foldl (fun acc b => acc * 256 + b) 0

/-- Big-endian encoding of a natural number into `w` bytes (low bytes kept,
as a fixed-width register). -/
def natToBytesBE : Nat → Nat → Bytes
  | 0, _ => []
  | w + 1, n => natToBytesBE w (n / 256) ++ [n % 256]

namespace Crypto

/-- Length of the database key component of an ID (`KeyLength`). -/
def KeyLength : Nat := 8

/-- Length of the password component of an ID (`PasswordLength`). -/
def PasswordLength : Nat := 32

/-- Length of the nonce component of an ID (`NonceLength`). -/
def NonceLength : Nat := 16

/-- Length of the salt component of an ID (`SaltLength`). -/
def SaltLength : Nat := 16

/-- Total length of a complete ID (`FullIDLength = 72`). -/
def FullIDLength : Nat := KeyLength + PasswordLength + NonceLength + SaltLength

/-- AES-256 key size in bytes (`aesKeySize`). -/
def aesKeySize : Nat := 32

/-- GCM nonce size in bytes (`gcmNonceSize`). -/
def gcmNonceSize : Nat := 12

/-- GCM authentication-tag size in bytes (Go `cipher.gcmTagSize`). -/
def gcmTagSize : Nat := 16

/-- The sentinel error values of the crypto package (`errors.New` values),
plus the formatted nonce-length error built with `fmt.Errorf`. -/
inductive Err where
  | invalidIDLength
  | invalidIDCharacters
  | invalidCiphertext
  | emptyPlaintext
  | decryptionFailed
  | nonceTooShort (got need : Nat)
  deriving DecidableEq, Repr

/-- Go `isBase62Char`: digit, lowercase or uppercase ASCII letter. -/
def isBase62Char (c : Nat) : Bool :=
  (0x30 ≤ c && c ≤ 0x39) || (0x61 ≤ c && c ≤ 0x7a) || (0x41 ≤ c && c ≤ 0x5a)

/-- The byte values of `base62Alphabet = "0123456789a…zA…Z"`. -/
def base62Alphabet : Bytes :=
  (List.range 10).map (fun i => 0x30 + i) ++
    (List.range 26).map (fun i => 0x61 + i) ++
    (List.range 26).map (fun i => 0x41 + i)

/-- Modelled from the spec: Go's UTF-8 rune decoding
(`unicode/utf8.DecodeRuneInString`, library code outside this repository),
returning the decoded code point and the number of bytes consumed; any
invalid or truncated sequence yields the replacement rune `0xFFFD` with
size 1, exactly as in Go. -/
def decodeRune : Bytes → Nat × Nat
  | [] => (0xFFFD, 0)
  | b0 :: rest =>
    if b0 < 0x80 then (b0, 1)
    else if b0 < 0xC2 then (0xFFFD, 1)
    else if b0 < 0xE0 then
      match rest with
      | b1 :: _ =>
        if 0x80 ≤ b1 ∧ b1 ≤ 0xBF then ((b0 % 0x20) * 0x40 + b1 % 0x40, 2)
        else (0xFFFD, 1)
      | [] => (0xFFFD, 1)
    else if b0 < 0xF0 then
      match rest with
      | b1 :: b2 :: _ =>
        if ((if b0 = 0xE0 then 0xA0 else 0x80) ≤ b1 ∧
              b1 ≤ (if b0 = 0xED then 0x9F else 0xBF)) ∧
            (0x80 ≤ b2 ∧ b2 ≤ 0xBF) then
          ((b0 % 0x10) * 0x1000 + (b1 % 0x40) * 0x40 + b2 % 0x40, 3)
        else (0xFFFD, 1)
      | _ => (0xFFFD, 1)
    else if b0 < 0xF5 then
      match rest with
      | b1 :: b2 :: b3 :: _ =>
        if ((if b0 = 0xF0 then 0x90 else 0x80) ≤ b1 ∧
              b1 ≤ (if b0 = 0xF4 then 0x8F else 0xBF)) ∧
            (0x80 ≤ b2 ∧ b2 ≤ 0xBF) ∧ (0x80 ≤ b3 ∧ b3 ≤ 0xBF) then
          ((b0 % 8) * 0x40000 + (b1 % 0x40) * 0x1000 + (b2 % 0x40) * 0x40 +
            b3 % 0x40, 4)
        else (0xFFFD, 1)
      | _ => (0xFFFD, 1)
    else (0xFFFD, 1)

/-- The rune sequence of a Go string under `for _, c := range s`, with
explicit fuel (one byte is always consumed per step, so the byte length is
enough fuel). -/
def runesAux : Nat → Bytes → List Nat
  | 0, _ => []
  | _, [] => []
  | fuel + 1, b :: rest =>
    let rn := decodeRune (b :: rest)
    rn.1 :: runesAux fuel ((b :: rest).drop rn.2)

/-- The runes a Go `for range` loop iterates over the string. -/
def runes (bs : Bytes) : List Nat :=
  runesAux bs.length bs

/-- Go `ParseID` splits a 72-character ID into its components, after
checking the byte length and, per rune of the range loop, that the
truncated low byte `byte(c)` is base-62 (the slicing offsets are byte
offsets, as in the Go source). -/
def ParseID (fullID : Bytes) : Except Err (Bytes × Bytes × Bytes × Bytes) :=
  if fullID.length ≠ FullIDLength then
    .error .invalidIDLength
  else if (runes fullID).any (fun c => !isBase62Char (c % 256)) then
    .error .invalidIDCharacters
  else
    .ok (fullID.take KeyLength,
      ((fullID.drop KeyLength).take PasswordLength,
        ((fullID.drop (KeyLength + PasswordLength)).take NonceLength,
          (fullID.drop (KeyLength + PasswordLength + NonceLength)).take SaltLength)))

/-- Go `ValidateID`: the ID has the fixed byte length and every rune's
truncated low byte `byte(c)` is base-62. -/
def ValidateID (id : Bytes) : Bool :=
  id.length = FullIDLength && (runes id).all (fun c => isBase62Char (c % 256))

theorem isBase62Char_lt {c : Nat} (h : isBase62Char c = true) : c < 128 := by
  simp only [isBase62Char, Bool.or_eq_true, Bool.and_eq_true,
    decide_eq_true_eq] at h
  omega

theorem runesAux_ascii : ∀ (fuel : Nat) (bs : Bytes), bs.length ≤ fuel →
    (∀ b ∈ bs, b < 128) → runesAux fuel bs = bs := by
  intro fuel
  induction fuel with
  | zero =>
    intro bs hlen _
    match bs with
    | [] => rfl
    | b :: rest => simp at hlen
  | succ f ih =>
    intro bs hlen hb
    match bs with
    | [] => rfl
    | b :: rest =>
      have hb0 : b < 128 := hb b (List.mem_cons_self _ _)
      have hdec : decodeRune (b :: rest) = (b, 1) := by
        rw [decodeRune.eq_def]
        simp only
        rw [if_pos hb0]
      rw [runesAux, hdec]
      simp only [List.drop_succ_cons, List.drop_zero]
      rw [ih rest (by simpa using hlen) (fun c hc => hb c (List.mem_cons_of_mem _ hc))]

theorem runes_ascii {bs : Bytes} (h : ∀ b ∈ bs, b < 128) : runes bs = bs :=
  runesAux_ascii bs.length bs le_rfl h

/-- The base-62 digits of `n`, least significant first, with explicit fuel
(the fuel only bounds the number of divmod steps; `n` itself is always
enough fuel since `n / 62 < n` for positive `n`). -/
def natToBase62RevAux : Nat → Nat → List Nat
  | 0, _ => []
  | _, 0 => []
  | fuel + 1, n + 1 => ((n + 1) % 62) :: natToBase62RevAux fuel ((n + 1) / 62)

/-- The base-62 digits of `n`, least significant first (the divmod loop of
`base62Encode`). -/
def natToBase62Rev (n : Nat) : List Nat :=
  natToBase62RevAux n n

/-- The run of `'0'` characters emitted for leading zero bytes of the input
in `base62Encode`. -/
def countLeadingZeroBytes : Bytes → Nat
  | [] => 0
  | b :: rest => if b = 0 then countLeadingZeroBytes rest + 1 else 0

/-- Go `base62Encode`: big-integer base-62 digits (emitted least significant
first, then one `'0'` per leading zero byte, then the whole string is
reversed, exactly as in the Go loop). -/
def base62Encode (input : Bytes) : Bytes :=
  if input = [] then []
  else
    let digits := (natToBase62Rev (natOfBytesBE input)).map
      (fun d => base62Alphabet.getD d 0)
    let zeros := List.replicate (countLeadingZeroBytes input)
      (base62Alphabet.getD 0 0)
    (digits ++ zeros).reverse

/-- Go `generateRandomBase62`, one attempt: encode `length + 8` freshly drawn
random bytes (supplied here as the argument `randomBytes`) and keep the
first `length` characters; the Go code retries with fresh randomness when
the encoding comes out short, modelled as `none`. -/
def generateRandomBase62 (length : Nat) (randomBytes : Bytes) : Option Bytes :=
  let encoded := base62Encode randomBytes
  if encoded.length < length then none else some (encoded.take length)

/-- Go `GenerateID`: four independently random base-62 segments and their
concatenation.  The four byte draws of `crypto/rand` are supplied as
arguments `r1 … r4`. -/
def GenerateID (r1 r2 r3 r4 : Bytes) :
    Option (Bytes × Bytes × Bytes × Bytes × Bytes) := do
  let key ← generateRandomBase62 KeyLength r1
  let password ← generateRandomBase62 PasswordLength r2
  let nonce ← generateRandomBase62 NonceLength r3
  let salt ← generateRandomBase62 SaltLength r4
  return (key, password, nonce, salt, key ++ password ++ nonce ++ salt)

theorem mem_natToBase62RevAux_lt {fuel n d : Nat}
    (h : d ∈ natToBase62RevAux fuel n) : d < 62 := by
  induction fuel generalizing n with
  | zero => simp [natToBase62RevAux] at h
  | succ f ih =>
    cases n with
    | zero => simp [natToBase62RevAux] at h
    | succ m =>
      rw [natToBase62RevAux] at h
      rcases List.mem_cons.mp h with h1 | h2
      · subst h1; exact Nat.mod_lt _ (by norm_num)
      · exact ih h2

theorem mem_natToBase62Rev_lt {n d : Nat} (h : d ∈ natToBase62Rev n) : d < 62 :=
  mem_natToBase62RevAux_lt h

theorem isBase62Char_alphabet_getD {d : Nat} (h : d < 62) :
    isBase62Char (base62Alphabet.getD d 0) = true := by
  interval_cases d <;> decide

theorem base62Encode_chars {input : Bytes} {c : Nat}
    (h : c ∈ base62Encode input) : isBase62Char c = true := by
  unfold base62Encode at h
  split at h
  · simp at h
  · rw [List.mem_reverse, List.mem_append] at h
    rcases h with h | h
    · rcases List.mem_map.mp h with ⟨d, hd, rfl⟩
      exact isBase62Char_alphabet_getD (mem_natToBase62Rev_lt hd)
    · rcases List.eq_of_mem_replicate h with rfl
      decide

theorem generateRandomBase62_spec {length : Nat} {r out : Bytes}
    (h : generateRandomBase62 length r = some out) :
    out.length = length ∧ ∀ c ∈ out, isBase62Char c = true := by
  unfold generateRandomBase62 at h
  simp only at h
  split at h
  · exact absurd h (by simp)
  · rename_i hlen
    injection h with h
    subst h
    constructor
    · rw [List.length_take]
      omega
    · intro c hc
      exact base62Encode_chars (List.mem_of_mem_take hc)

theorem parseID_concat {k p n s : Bytes}
    (hk : k.length = KeyLength) (hp : p.length = PasswordLength)
    (hn : n.length = NonceLength) (hs : s.length = SaltLength)
    (hchars : ∀ c ∈ k ++ p ++ n ++ s, isBase62Char c = true) :
    ParseID (k ++ p ++ n ++ s) = .ok (k, p, n, s) := by
  have hlen : (k ++ p ++ n ++ s).length = FullIDLength := by
    simp only [List.length_append, hk, hp, hn, hs]
    decide
  have hascii : ∀ b ∈ k ++ p ++ n ++ s, b < 128 :=
    fun b hb => isBase62Char_lt (hchars b hb)
  have hany : (runes (k ++ p ++ n ++ s)).any
      (fun c => !isBase62Char (c % 256)) = false := by
    rw [runes_ascii hascii, List.any_eq_false]
    intro c hc
    rw [Nat.mod_eq_of_lt (Nat.lt_trans (hascii c hc) (by norm_num))]
    simp [hchars c hc]
  unfold ParseID
  rw [if_neg (not_ne_iff.mpr hlen), hany]
  simp only [Bool.false_eq_true, if_false]
  have hassoc : k ++ p ++ n ++ s = k ++ (p ++ (n ++ s)) := by
    simp [List.append_assoc]
  rw [hassoc]
  have h1 : (k ++ (p ++ (n ++ s))).take KeyLength = k := List.take_left' hk
  have h2 : (k ++ (p ++ (n ++ s))).drop KeyLength = p ++ (n ++ s) :=
    List.drop_left' hk
  have h3 : (k ++ (p ++ (n ++ s))).drop (KeyLength + PasswordLength) = n ++ s := by
    rw [← List.drop_drop, h2]
    exact List.drop_left' hp
  have h4 : (k ++ (p ++ (n ++ s))).drop (KeyLength + PasswordLength + NonceLength) = s := by
    rw [← List.drop_drop, h3]
    exact List.drop_left' hn
  rw [h1, h2, h3, h4, List.take_left' hp, List.take_left' hn,
    List.take_of_length_le (le_of_eq hs)]

/-- C7: every successful `GenerateID` returns segments of widths 8, 32, 16,
16, a 72-character base-62 `fullID` equal to their concatenation, and
`ParseID` recovers exactly those four segments. -/
theorem claim_C7_generateID (r1 r2 r3 r4 k p n s full : Bytes)
    (h : GenerateID r1 r2 r3 r4 = some (k, p, n, s, full)) :
    k.length = 8 ∧ p.length = 32 ∧ n.length = 16 ∧ s.length = 16 ∧
      full = k ++ p ++ n ++ s ∧ full.length = 72 ∧
      (∀ c ∈ full, isBase62Char c = true) ∧
      ParseID full = .ok (k, p, n, s) := by
  simp only [GenerateID, Option.bind_eq_bind, Option.bind_eq_some,
    Option.some.injEq, Prod.mk.injEq] at h
  obtain ⟨k', hk', p', hp', n', hn', s', hs', rfl, rfl, rfl, rfl, rfl⟩ := h
  obtain ⟨hklen, hkchars⟩ := generateRandomBase62_spec hk'
  obtain ⟨hplen, hpchars⟩ := generateRandomBase62_spec hp'
  obtain ⟨hnlen, hnchars⟩ := generateRandomBase62_spec hn'
  obtain ⟨hslen, hschars⟩ := generateRandomBase62_spec hs'
  have hchars : ∀ c ∈ k ++ p ++ n ++ s, isBase62Char c = true := by
    intro c hc
    simp only [List.mem_append] at hc
    rcases hc with ((hc | hc) | hc) | hc
    · exact hkchars c hc
    · exact hpchars c hc
    · exact hnchars c hc
    · exact hschars c hc
  refine ⟨hklen, hplen, hnlen, hslen, rfl, ?_, hchars, ?_⟩
  · simp only [List.length_append, hklen, hplen, hnlen, hslen]
    decide
  · exact parseID_concat hklen hplen hnlen hslen hchars

/-- Witness for C7: a concrete run of `GenerateID` (random bytes fixed),
its 72-character output and its reparse. -/
theorem claim_C7_witness :
    ([49, 56, 53, 71, 82, 88, 103, 122] : Bytes).length = 8 ∧
      ParseID
        [49, 56, 53, 71, 82, 88, 103, 122, 104, 50, 86, 48, 85, 49, 101, 48,
          82, 103, 67, 115, 101, 81, 98, 80, 122, 77, 120, 57, 111, 82, 103,
          114, 79, 102, 73, 87, 120, 52, 108, 100, 49, 67, 51, 75, 75, 118,
          54, 120, 51, 77, 84, 87, 106, 97, 122, 114, 52, 72, 114, 90, 71,
          69, 70, 117, 89, 56, 115, 55, 121, 67, 104, 117] =
        .ok ([49, 56, 53, 71, 82, 88, 103, 122],
          [104, 50, 86, 48, 85, 49, 101, 48, 82, 103, 67, 115, 101, 81, 98,
            80, 122, 77, 120, 57, 111, 82, 103, 114, 79, 102, 73, 87, 120,
            52, 108, 100],
          [49, 67, 51, 75, 75, 118, 54, 120, 51, 77, 84, 87, 106, 97, 122, 114],
          [52, 72, 114, 90, 71, 69, 70, 117, 89, 56, 115, 55, 121, 67, 104, 117]) := by
  have h := claim_C7_generateID (List.replicate 16 37) (List.replicate 40 202)
    (List.replicate 24 149) (List.replicate 24 7)
    [49, 56, 53, 71, 82, 88, 103, 122]
    [104, 50, 86, 48, 85, 49, 101, 48, 82, 103, 67, 115, 101, 81, 98, 80,
      122, 77, 120, 57, 111, 82, 103, 114, 79, 102, 73, 87, 120, 52, 108, 100]
    [49, 67, 51, 75, 75, 118, 54, 120, 51, 77, 84, 87, 106, 97, 122, 114]
    [52, 72, 114, 90, 71, 69, 70, 117, 89, 56, 115, 55, 121, 67, 104, 117]
    [49, 56, 53, 71, 82, 88, 103, 122, 104, 50, 86, 48, 85, 49, 101, 48, 82,
      103, 67, 115, 101, 81, 98, 80, 122, 77, 120, 57, 111, 82, 103, 114, 79,
      102, 73, 87, 120, 52, 108, 100, 49, 67, 51, 75, 75, 118, 54, 120, 51,
      77, 84, 87, 106, 97, 122, 114, 52, 72, 114, 90, 71, 69, 70, 117, 89,
      56, 115, 55, 121, 67, 104, 117]
    (by decide)
  exact ⟨h.1, h.2.2.2.2.2.2.2⟩

/-- C8 counterexample: the 72-byte ID of 36 copies of U+0141 (bytes
197, 129) has every byte — and every rune — outside the base-62 alphabet,
yet `ParseID` succeeds and `ValidateID` is true, because Go iterates runes
and checks only the truncated low byte `byte(c)` (here `byte(0x141) =
0x41 = 'A'`); so "fails with InvalidCharacters when some character is
outside the alphabet" is false of the program. -/
theorem claim_C8_counterexample :
    (List.flatten (List.replicate 36 [197, 129]) : Bytes).length = 72 ∧
      (List.flatten (List.replicate 36 [197, 129]) : Bytes).all
        (fun c => !isBase62Char c) = true ∧
      (runes (List.flatten (List.replicate 36 [197, 129]))).all
        (fun c => !isBase62Char c) = true ∧
      ValidateID (List.flatten (List.replicate 36 [197, 129])) = true ∧
      ParseID (List.flatten (List.replicate 36 [197, 129])) =
        .ok ((List.flatten (List.replicate 36 [197, 129]) : Bytes).take KeyLength,
          (((List.flatten (List.replicate 36 [197, 129]) : Bytes).drop
              KeyLength).take PasswordLength,
            (((List.flatten (List.replicate 36 [197, 129]) : Bytes).drop
                (KeyLength + PasswordLength)).take NonceLength,
              ((List.flatten (List.replicate 36 [197, 129]) : Bytes).drop
                (KeyLength + PasswordLength + NonceLength)).take SaltLength))) := by
  exact ⟨by decide, by decide, by decide, by decide, by rfl⟩

/-- C8 (amended): `ParseID` fails with `invalidIDLength` when the byte
length is not 72; when the length is 72 it iterates the UTF-8 runes of the
string and checks the truncated low byte `byte(c)` of each, failing with
`invalidIDCharacters` when some rune has a non-base-62 low byte and
succeeding otherwise (so multi-byte runes whose low byte is base-62 are
accepted); `ValidateID` is true exactly when `ParseID` succeeds — both
purely syntactic. -/
theorem claim_C8_parseID_validateID (id : Bytes) :
    (id.length ≠ FullIDLength → ParseID id = .error .invalidIDLength) ∧
      (id.length = FullIDLength →
        (∃ c ∈ runes id, isBase62Char (c % 256) = false) →
        ParseID id = .error .invalidIDCharacters) ∧
      (id.length = FullIDLength →
        (∀ c ∈ runes id, isBase62Char (c % 256) = true) →
        ParseID id = .ok (id.take KeyLength,
          ((id.drop KeyLength).take PasswordLength,
            ((id.drop (KeyLength + PasswordLength)).take NonceLength,
              (id.drop (KeyLength + PasswordLength + NonceLength)).take SaltLength)))) ∧
      (ValidateID id = true ↔ ∃ out, ParseID id = .ok out) := by
  have hok : id.length = FullIDLength →
      (∀ c ∈ runes id, isBase62Char (c % 256) = true) →
      ParseID id = .ok (id.take KeyLength,
        ((id.drop KeyLength).take PasswordLength,
          ((id.drop (KeyLength + PasswordLength)).take NonceLength,
            (id.drop (KeyLength + PasswordLength + NonceLength)).take SaltLength))) := by
    intro hlen hgood
    unfold ParseID
    rw [if_neg (not_ne_iff.mpr hlen)]
    have : (runes id).any (fun c => !isBase62Char (c % 256)) = false := by
      rw [List.any_eq_false]
      intro c hc
      simp [hgood c hc]
    rw [this]
    simp
  refine ⟨?_, ?_, hok, ?_⟩
  · intro hne
    unfold ParseID
    rw [if_pos hne]
  · intro hlen hbad
    unfold ParseID
    rw [if_neg (not_ne_iff.mpr hlen)]
    have : (runes id).any (fun c => !isBase62Char (c % 256)) = true := by
      rw [List.any_eq_true]
      obtain ⟨c, hc, hfc⟩ := hbad
      exact ⟨c, hc, by simp [hfc]⟩
    rw [this]
    simp
  · constructor
    · intro hval
      rw [ValidateID, Bool.and_eq_true] at hval
      obtain ⟨hlen, hall⟩ := hval
      have hlen2 : id.length = FullIDLength := by
        simpa using hlen
      exact ⟨_, hok hlen2 (fun c hc => List.all_eq_true.mp hall c hc)⟩
    · rintro ⟨out, hout⟩
      unfold ParseID at hout
      by_cases hlen : id.length = FullIDLength
      · by_cases hany : (runes id).any (fun c => !isBase62Char (c % 256)) = true
        · rw [if_neg (not_ne_iff.mpr hlen), hany] at hout
          simp at hout
        · rw [ValidateID, Bool.and_eq_true]
          refine ⟨by simp [hlen], ?_⟩
          rw [List.all_eq_true]
          intro c hc
          by_contra hbad
          exact hany (List.any_eq_true.mpr ⟨c, hc, by simp [hbad]⟩)
      · rw [if_pos hlen] at hout
        simp at hout

/-- Witness for C8 (amended): length-71 input, an ASCII non-base62 input,
and a valid 72-character input, each with the predicted
`ParseID`/`ValidateID` result. -/
theorem claim_C8_witness :
    ParseID (List.replicate 71 97) = .error .invalidIDLength ∧
      ParseID (List.replicate 72 33) = .error .invalidIDCharacters ∧
      ParseID (List.replicate 72 97) =
        .ok ((List.replicate 72 97 : Bytes).take KeyLength,
          (((List.replicate 72 97 : Bytes).drop KeyLength).take PasswordLength,
            (((List.replicate 72 97 : Bytes).drop (KeyLength + PasswordLength)).take NonceLength,
              ((List.replicate 72 97 : Bytes).drop
                (KeyLength + PasswordLength + NonceLength)).take SaltLength))) ∧
      ValidateID (List.replicate 72 97) = true := by
  have h3 := (claim_C8_parseID_validateID (List.replicate 72 97)).2.2.1
    (by decide) (by decide)
  refine ⟨(claim_C8_parseID_validateID (List.replicate 71 97)).1 (by decide),
    (claim_C8_parseID_validateID (List.replicate 72 33)).2.1 (by decide)
      ⟨33, by decide, by decide⟩, h3, ?_⟩
  exact (claim_C8_parseID_validateID (List.replicate 72 97)).2.2.2.mpr ⟨_, h3⟩

/-- Modelled from the spec: scrypt key derivation
(`golang.org/x/crypto/scrypt`, not part of this repository) — a
deterministic, parameter-free-for-the-caller map from password and salt to
a 32-byte AES key. -/
def deriveKey (password salt : Bytes) : Bytes :=
  (List.range aesKeySize).map
    (fun i => (natOfBytesBE password * 31 + natOfBytesBE salt * 17 + i) % 256)

/-- Modelled from the spec: byte `i` of the AES-CTR keystream under
`key`/`nonce` (the confidentiality half of Go's AES-GCM `Seal`/`Open`,
not part of this repository). -/
def keystreamByte (key nonce : Bytes) (i : Nat) : Nat :=
  (natOfBytesBE key * 131 + natOfBytesBE nonce * 257 + i * 163) % 256

/-- The CTR body transform: XOR each byte with the keystream, the counter
starting at `i`. -/
def ctrXor (key nonce : Bytes) : Nat → Bytes → Bytes
  | _, [] => []
  | i, b :: rest => (b ^^^ keystreamByte key nonce i) :: ctrXor key nonce (i + 1) rest

/-- Modulus of the polynomial authenticator: an odd 128-bit modulus playing
the role of GCM's GF(2^128) (odd, so that a single flipped input bit always
moves the authenticator value). -/
def tagModulus : Nat := 2 ^ 128 - 159

/-- Modelled from the spec: the 16-byte GCM authentication tag value over
the ciphertext body — a position-sensitive polynomial authenticator keyed
by `key` and `nonce` with a length term (GHASH plus the encrypted counter
block of Go's GCM, not part of this repository). -/
def tagNat (key nonce body : Bytes) : Nat :=
  (natOfBytesBE body + body.length * 2 ^ 64 +
    natOfBytesBE key * 7 + natOfBytesBE nonce * 11) % tagModulus

/-- Go `aesGCM.Seal`: CTR-encrypted body followed by the 16-byte tag. -/
def gcmSeal (key nonce plaintext : Bytes) : Bytes :=
  let body := ctrXor key nonce 0 plaintext
  body ++ natToBytesBE gcmTagSize (tagNat key nonce body)

/-- Go `aesGCM.Open`: split off the 16-byte tag, verify it over the body, and
CTR-decrypt the body; any mismatch (or an input shorter than the tag)
fails. -/
def gcmOpen (key nonce ciphertext : Bytes) : Option Bytes :=
  if ciphertext.length < gcmTagSize then none
  else
    let body := ciphertext.take (ciphertext.length - gcmTagSize)
    let tag := ciphertext.drop (ciphertext.length - gcmTagSize)
    if tag = natToBytesBE gcmTagSize (tagNat key nonce body) then
      some (ctrXor key nonce 0 body)
    else none

/-- Go `Encrypt` (AES-256-GCM variant): reject empty plaintext, derive the
key, truncate the nonce to the 12-byte GCM nonce (error when shorter),
seal. -/
def Encrypt (plaintext password nonce salt : Bytes) : Except Err Bytes :=
  if plaintext.length = 0 then .error .emptyPlaintext
  else if nonce.length < gcmNonceSize then
    .error (.nonceTooShort nonce.length gcmNonceSize)
  else
    .ok (gcmSeal (deriveKey password salt) (nonce.take gcmNonceSize) plaintext)

/-- Go `Decrypt` (AES-256-GCM variant): empty ciphertext fails fast with
`invalidCiphertext`; the nonce is truncated to 12 bytes (error when
shorter); any `Open` failure is collapsed to `decryptionFailed`. -/
def Decrypt (ciphertext password nonce salt : Bytes) : Except Err Bytes :=
  if ciphertext.length = 0 then .error .invalidCiphertext
  else if nonce.length < gcmNonceSize then
    .error (.nonceTooShort nonce.length gcmNonceSize)
  else
    match gcmOpen (deriveKey password salt) (nonce.take gcmNonceSize) ciphertext with
    | some plaintext => .ok plaintext
    | none => .error .decryptionFailed

theorem ctrXor_length (key nonce : Bytes) (i : Nat) (l : Bytes) :
    (ctrXor key nonce i l).length = l.length := by
  induction l generalizing i with
  | nil => rfl
  | cons b rest ih => simp [ctrXor, ih]

theorem ctrXor_ctrXor (key nonce : Bytes) (i : Nat) (l : Bytes) :
    ctrXor key nonce i (ctrXor key nonce i l) = l := by
  induction l generalizing i with
  | nil => rfl
  | cons b rest ih => simp [ctrXor, ih, Nat.xor_cancel_right]

theorem natToBytesBE_length (w n : Nat) : (natToBytesBE w n).length = w := by
  induction w generalizing n with
  | zero => rfl
  | succ w ih => simp [natToBytesBE, ih]

theorem gcmOpen_gcmSeal (key nonce pt : Bytes) :
    gcmOpen key nonce (gcmSeal key nonce pt) = some pt := by
  unfold gcmOpen gcmSeal
  simp only
  have hblen : (ctrXor key nonce 0 pt).length = pt.length := ctrXor_length _ _ _ _
  have hlen : ((ctrXor key nonce 0 pt) ++
      natToBytesBE gcmTagSize (tagNat key nonce (ctrXor key nonce 0 pt))).length =
      pt.length + gcmTagSize := by
    simp [List.length_append, hblen, natToBytesBE_length]
  rw [if_neg (by omega)]
  have hsub : pt.length + gcmTagSize - gcmTagSize = pt.length := by omega
  rw [hlen, hsub, List.take_left' hblen, List.drop_left' hblen, if_pos rfl,
    ctrXor_ctrXor]

/-- C1: for every non-empty plaintext and identifier-shaped parameters
(password, nonce, salt of widths 32, 16, 16), `Decrypt` of
`Encrypt(p, password, nonce, salt)` with the same parameters returns `p`
without error. -/
theorem claim_C1_roundtrip (pt password nonce salt : Bytes)
    (hpt : pt ≠ [])
    (hpw : password.length = PasswordLength)
    (hn : nonce.length = NonceLength)
    (hs : salt.length = SaltLength) :
    ∃ ct, Encrypt pt password nonce salt = .ok ct ∧
      Decrypt ct password nonce salt = .ok pt := by
  have hptlen : pt.length ≠ 0 := by
    simpa [List.length_eq_zero] using hpt
  have hnonce : ¬ nonce.length < gcmNonceSize := by
    rw [hn]; decide
  refine ⟨gcmSeal (deriveKey password salt) (nonce.take gcmNonceSize) pt, ?_, ?_⟩
  · unfold Encrypt
    rw [if_neg hptlen, if_neg hnonce]
  · unfold Decrypt
    have hctlen : (gcmSeal (deriveKey password salt) (nonce.take gcmNonceSize) pt).length =
        pt.length + gcmTagSize := by
      simp [gcmSeal, List.length_append, ctrXor_length, natToBytesBE_length]
    rw [if_neg (by omega), if_neg hnonce, gcmOpen_gcmSeal]

/-- Witness for C1: round trip on a concrete 5-byte plaintext with
identifier-width parameters. -/
theorem claim_C1_witness :
    ∃ ct, Encrypt [104, 101, 108, 108, 111] (List.replicate 32 97)
        (List.replicate 16 98) (List.replicate 16 99) = .ok ct ∧
      Decrypt ct (List.replicate 32 97) (List.replicate 16 98)
        (List.replicate 16 99) = .ok [104, 101, 108, 108, 111] :=
  claim_C1_roundtrip [104, 101, 108, 108, 111] (List.replicate 32 97)
    (List.replicate 16 98) (List.replicate 16 99)
    (by decide) (by decide) (by decide) (by decide)

/-- C2: with a full-width nonce, `Decrypt` fails on empty input with
`invalidCiphertext` (before any decryption work), and every other failure
is the single generic `decryptionFailed` value. -/
theorem claim_C2_generic_failure (ct password nonce salt : Bytes)
    (hn : gcmNonceSize ≤ nonce.length) :
    (ct = [] → Decrypt ct password nonce salt = .error .invalidCiphertext) ∧
      (∀ e, Decrypt ct password nonce salt = .error e →
        (ct = [] ∧ e = .invalidCiphertext) ∨ (ct ≠ [] ∧ e = .decryptionFailed)) := by
  constructor
  · rintro rfl
    rfl
  · intro e he
    unfold Decrypt at he
    by_cases hct : ct.length = 0
    · rw [if_pos hct] at he
      injection he with he
      exact Or.inl ⟨List.length_eq_zero.mp hct, he.symm⟩
    · rw [if_neg hct, if_neg (by omega)] at he
      refine Or.inr ⟨fun h => hct (by simp [h]), ?_⟩
      rcases hopen : gcmOpen (deriveKey password salt) (nonce.take gcmNonceSize) ct with
        _ | pt
      · rw [hopen] at he
        injection he with he
        exact he.symm
      · rw [hopen] at he
        exact absurd he (by simp)

/-- Witness for C2: an empty ciphertext and an (unauthentic) one-byte
ciphertext under a 16-character nonce. -/
theorem claim_C2_witness :
    Decrypt [] [] (List.replicate 16 98) [] = .error .invalidCiphertext ∧
      (([42] : Bytes) ≠ [] ∧ Err.decryptionFailed = Err.decryptionFailed) := by
  constructor
  · exact (claim_C2_generic_failure [] [] (List.replicate 16 98) [] (by decide)).1 rfl
  · have h := (claim_C2_generic_failure [42] [] (List.replicate 16 98) []
      (by decide)).2 Err.decryptionFailed (by rfl)
    rcases h with ⟨h1, _⟩ | h2
    · exact absurd h1 (by decide)
    · exact h2

/-- C9: `Encrypt`/`Decrypt` read only the first 12 bytes of the nonce; a
nonce shorter than 12 bytes fails both operations with the nonce-length
error, which is distinct from the generic decryption failure. -/
theorem claim_C9_nonce_truncation (password salt : Bytes) :
    (∀ pt n1 n2 : Bytes, gcmNonceSize ≤ n1.length → gcmNonceSize ≤ n2.length →
      n1.take gcmNonceSize = n2.take gcmNonceSize →
      Encrypt pt password n1 salt = Encrypt pt password n2 salt) ∧
      (∀ ct n1 n2 : Bytes, gcmNonceSize ≤ n1.length → gcmNonceSize ≤ n2.length →
        n1.take gcmNonceSize = n2.take gcmNonceSize →
        Decrypt ct password n1 salt = Decrypt ct password n2 salt) ∧
      (∀ pt n : Bytes, pt ≠ [] → n.length < gcmNonceSize →
        Encrypt pt password n salt = .error (.nonceTooShort n.length gcmNonceSize)) ∧
      (∀ ct n : Bytes, ct ≠ [] → n.length < gcmNonceSize →
        Decrypt ct password n salt = .error (.nonceTooShort n.length gcmNonceSize)) ∧
      (∀ got need : Nat, Err.nonceTooShort got need ≠ Err.decryptionFailed) := by
  refine ⟨?_, ?_, ?_, ?_, ?_⟩
  · intro pt n1 n2 h1 h2 htake
    unfold Encrypt
    rw [if_neg (by omega : ¬ n1.length < gcmNonceSize),
      if_neg (by omega : ¬ n2.length < gcmNonceSize), htake]
  · intro ct n1 n2 h1 h2 htake
    unfold Decrypt
    rw [if_neg (by omega : ¬ n1.length < gcmNonceSize),
      if_neg (by omega : ¬ n2.length < gcmNonceSize), htake]
  · intro pt n hpt hshort
    unfold Encrypt
    rw [if_neg (by simpa [List.length_eq_zero] using hpt), if_pos hshort]
  · intro ct n hct hshort
    unfold Decrypt
    rw [if_neg (by simpa [List.length_eq_zero] using hct), if_pos hshort]
  · intro got need h
    exact Err.noConfusion h

/-- Witness for C9: two 16-byte nonces sharing a 12-byte prefix, and a
5-byte nonce. -/
theorem claim_C9_witness :
    Encrypt [1] [] (List.replicate 12 98 ++ [1, 1, 1, 1]) [] =
        Encrypt [1] [] (List.replicate 12 98 ++ [2, 2, 2, 2]) [] ∧
      Decrypt [1] [] (List.replicate 12 98 ++ [1, 1, 1, 1]) [] =
        Decrypt [1] [] (List.replicate 12 98 ++ [2, 2, 2, 2]) [] ∧
      Encrypt [1] [] [5, 5, 5, 5, 5] [] = .error (.nonceTooShort 5 12) ∧
      Decrypt [1] [] [5, 5, 5, 5, 5] [] = .error (.nonceTooShort 5 12) := by
  have h := claim_C9_nonce_truncation [] []
  exact ⟨h.1 [1] _ _ (by decide) (by decide) (by decide),
    h.2.1 [1] _ _ (by decide) (by decide) (by decide),
    h.2.2.1 [1] [5, 5, 5, 5, 5] (by decide) (by decide),
    h.2.2.2.1 [1] [5, 5, 5, 5, 5] (by decide) (by decide)⟩

theorem natOfBytesBE_from (a : Nat) (l : Bytes) :
    l.foldl (fun acc b => acc * 256 + b) a = a * 256 ^ l.length + natOfBytesBE l := by
  induction l generalizing a with
  | nil => simp [natOfBytesBE]
  | cons b rest ih =>
    simp only [List.foldl_cons, List.length_cons]
    rw [ih (a * 256 + b)]
    have hbr : natOfBytesBE (b :: rest) = b * 256 ^ rest.length + natOfBytesBE rest := by
      show rest.foldl _ (0 * 256 + b) = _
      rw [Nat.zero_mul, Nat.zero_add, ih b]
    rw [hbr]
    ring

theorem natOfBytesBE_cons (b : Nat) (l : Bytes) :
    natOfBytesBE (b :: l) = b * 256 ^ l.length + natOfBytesBE l := by
  show l.foldl _ (0 * 256 + b) = _
  rw [Nat.zero_mul, Nat.zero_add, natOfBytesBE_from b l]

theorem natOfBytesBE_append (l1 l2 : Bytes) :
    natOfBytesBE (l1 ++ l2) = natOfBytesBE l1 * 256 ^ l2.length + natOfBytesBE l2 := by
  show (l1 ++ l2).foldl _ 0 = _
  rw [List.foldl_append]
  exact natOfBytesBE_from _ l2

theorem natOfBytesBE_natToBytesBE (w n : Nat) :
    natOfBytesBE (natToBytesBE w n) = n % 256 ^ w := by
  induction w generalizing n with
  | zero => simp [natToBytesBE, natOfBytesBE, Nat.mod_one]
  | succ w ih =>
    rw [natToBytesBE, natOfBytesBE_append, ih]
    have h1 : natOfBytesBE [n % 256] = n % 256 := by
      simp [natOfBytesBE]
    have h2 : ([n % 256] : Bytes).length = 1 := rfl
    rw [h1, h2, pow_one, pow_succ, Nat.mul_comm (256 ^ w) 256, Nat.mod_mul]
    ring

theorem natToBytesBE_inj {w a b : Nat} (ha : a < 256 ^ w) (hb : b < 256 ^ w)
    (h : natToBytesBE w a = natToBytesBE w b) : a = b := by
  have := congrArg natOfBytesBE h
  rwa [natOfBytesBE_natToBytesBE, natOfBytesBE_natToBytesBE,
    Nat.mod_eq_of_lt ha, Nat.mod_eq_of_lt hb] at this

theorem natToBytesBE_bytes_lt (w n : Nat) : ∀ b ∈ natToBytesBE w n, b < 256 := by
  induction w generalizing n with
  | zero => intro b hb; simp [natToBytesBE] at hb
  | succ w ih =>
    intro b hb
    rw [natToBytesBE, List.mem_append] at hb
    rcases hb with hb | hb
    · exact ih _ b hb
    · rcases List.mem_singleton.mp hb with rfl
      exact Nat.mod_lt _ (by norm_num)

set_option maxRecDepth 8192 in
theorem xor_byte_facts : ∀ b : Fin 256, ∀ k : Fin 8,
    ((b.val ^^^ 2 ^ k.val = b.val + 2 ^ k.val) ∨
      (b.val = (b.val ^^^ 2 ^ k.val) + 2 ^ k.val)) ∧
    b.val ^^^ 2 ^ k.val < 256 ∧ ¬ b.val ^^^ 2 ^ k.val = b.val := by decide

theorem xor_byte_facts' {b k : Nat} (hb : b < 256) (hk : k < 8) :
    ((b ^^^ 2 ^ k = b + 2 ^ k) ∨ (b = (b ^^^ 2 ^ k) + 2 ^ k)) ∧
      b ^^^ 2 ^ k < 256 ∧ ¬ b ^^^ 2 ^ k = b :=
  xor_byte_facts ⟨b, hb⟩ ⟨k, hk⟩

theorem natOfBytesBE_set (l : Bytes) (j v : Nat) (hj : j < l.length) :
    natOfBytesBE (l.set j v) + l.getD j 0 * 256 ^ (l.length - 1 - j) =
      natOfBytesBE l + v * 256 ^ (l.length - 1 - j) := by
  induction l generalizing j with
  | nil => simp at hj
  | cons b rest ih =>
    cases j with
    | zero =>
      simp only [List.set_cons_zero, List.getD_cons_zero, List.length_cons,
        Nat.add_sub_cancel, Nat.sub_zero]
      rw [natOfBytesBE_cons, natOfBytesBE_cons]
      ring
    | succ j' =>
      have hj' : j' < rest.length := by simpa using hj
      simp only [List.set_cons_succ, List.getD_cons_succ, List.length_cons]
      rw [natOfBytesBE_cons, natOfBytesBE_cons, List.length_set]
      have hlen : rest.length + 1 - 1 - (j' + 1) = rest.length - 1 - j' := by omega
      rw [hlen, Nat.add_assoc, Nat.add_assoc]
      exact congrArg (b * 256 ^ rest.length + ·) (ih j' hj')

theorem tagModulus_pos : 0 < tagModulus := by
  norm_num [tagModulus]

theorem tag_move (a e : Nat) : (a + 2 ^ e) % tagModulus ≠ a % tagModulus := by
  intro h
  have hm : a ≡ a + 2 ^ e [MOD tagModulus] := h.symm
  have hdvd : tagModulus ∣ a + 2 ^ e - a :=
    (Nat.modEq_iff_dvd' (Nat.le_add_right a (2 ^ e))).mp hm
  rw [Nat.add_sub_cancel_left] at hdvd
  have hodd : Nat.Coprime tagModulus 2 := by rfl
  have hcop : Nat.Coprime tagModulus (2 ^ e) := hodd.pow_right e
  have h1 : tagModulus = 1 := Nat.Coprime.eq_one_of_dvd hcop hdvd
  norm_num [tagModulus] at h1

theorem tagNat_lt (key nonce body : Bytes) : tagNat key nonce body < tagModulus :=
  Nat.mod_lt _ tagModulus_pos

theorem tagModulus_lt : tagModulus < 256 ^ 16 := by
  norm_num [tagModulus]

theorem xor_lt_256 {a b : Nat} (ha : a < 256) (hb : b < 256) : a ^^^ b < 256 := by
  have h := Nat.xor_lt_two_pow (n := 8) (by simpa using ha) (by simpa using hb)
  simpa using h

theorem ctrXor_bytes_lt (key nonce : Bytes) (i : Nat) (l : Bytes)
    (hl : ∀ b ∈ l, b < 256) : ∀ b ∈ ctrXor key nonce i l, b < 256 := by
  induction l generalizing i with
  | nil => intro b hb; simp [ctrXor] at hb
  | cons x rest ih =>
    intro b hb
    rw [ctrXor] at hb
    rcases List.mem_cons.mp hb with rfl | hb
    · exact xor_lt_256 (hl x (List.mem_cons_self _ _)) (Nat.mod_lt _ (by norm_num))
    · exact ih (i + 1) (fun c hc => hl c (List.mem_cons_of_mem _ hc)) b hb

theorem getD_set_self {l : Bytes} {j v : Nat} (h : j < l.length) :
    (l.set j v).getD j 0 = v := by
  rw [List.getD_eq_getElem?_getD, List.getElem?_set]
  simp [h]

/-- Flip bit `i` of a byte string: bit `i % 8` of byte `i / 8` (the
single-bit tampering of the spec's tamper-sensitivity property). -/
def flipBit (bs : Bytes) (i : Nat) : Bytes :=
  bs.set (i / 8) (bs.getD (i / 8) 0 ^^^ 2 ^ (i % 8))

/-- The full tag numerator of `tagNat`, before reduction mod
`tagModulus`. -/
def tagNumerator (key nonce body : Bytes) : Nat :=
  natOfBytesBE body + body.length * 2 ^ 64 +
    natOfBytesBE key * 7 + natOfBytesBE nonce * 11

theorem tagNat_eq_numerator (key nonce body : Bytes) :
    tagNat key nonce body = tagNumerator key nonce body % tagModulus := rfl

/-- Changing one byte of `body` by a single-bit XOR moves the tag value. -/
theorem tagNat_set_ne (key nonce body : Bytes) (j k : Nat)
    (hj : j < body.length) (hk : k < 8)
    (hbytes : ∀ b ∈ body, b < 256) :
    tagNat key nonce (body.set j (body.getD j 0 ^^^ 2 ^ k)) ≠
      tagNat key nonce body := by
  have hb : body.getD j 0 < 256 := by
    rw [List.getD_eq_getElem body 0 hj]
    exact hbytes _ (List.getElem_mem hj)
  obtain ⟨hcase, _, _⟩ := xor_byte_facts' hb hk
  have hset := natOfBytesBE_set body j (body.getD j 0 ^^^ 2 ^ k) hj
  have hW2 : 2 ^ k * 256 ^ (body.length - 1 - j) =
      2 ^ (k + 8 * (body.length - 1 - j)) := by
    have h256 : (256 : Nat) = 2 ^ 8 := by norm_num
    rw [h256, ← pow_mul, ← pow_add]
  have hlen : (body.set j (body.getD j 0 ^^^ 2 ^ k)).length = body.length :=
    List.length_set _ _ _
  rw [tagNat_eq_numerator, tagNat_eq_numerator]
  rcases hcase with hA | hB
  · -- the XOR adds 2^k to the byte: the set body is larger by 2^(k+8m)
    have hS : natOfBytesBE (body.set j (body.getD j 0 ^^^ 2 ^ k)) =
        natOfBytesBE body + 2 ^ (k + 8 * (body.length - 1 - j)) := by
      have h1 : natOfBytesBE (body.set j (body.getD j 0 ^^^ 2 ^ k)) +
          body.getD j 0 * 256 ^ (body.length - 1 - j) =
          (natOfBytesBE body + 2 ^ (k + 8 * (body.length - 1 - j))) +
            body.getD j 0 * 256 ^ (body.length - 1 - j) := by
        rw [hset, hA, ← hW2]
        ring
      exact Nat.add_right_cancel h1
    have hnum : tagNumerator key nonce (body.set j (body.getD j 0 ^^^ 2 ^ k)) =
        tagNumerator key nonce body + 2 ^ (k + 8 * (body.length - 1 - j)) := by
      unfold tagNumerator
      rw [hS, hlen]
      ring
    rw [hnum]
    exact tag_move _ _
  · -- the XOR subtracts 2^k from the byte: the set body is smaller
    have hS : natOfBytesBE body =
        natOfBytesBE (body.set j (body.getD j 0 ^^^ 2 ^ k)) +
          2 ^ (k + 8 * (body.length - 1 - j)) := by
      have hgetD : body.getD j 0 * 256 ^ (body.length - 1 - j) =
          (body.getD j 0 ^^^ 2 ^ k) * 256 ^ (body.length - 1 - j) +
            2 ^ k * 256 ^ (body.length - 1 - j) := by
        conv_lhs => rw [hB]
        ring
      have h1 : natOfBytesBE body +
          (body.getD j 0 ^^^ 2 ^ k) * 256 ^ (body.length - 1 - j) =
          (natOfBytesBE (body.set j (body.getD j 0 ^^^ 2 ^ k)) +
            2 ^ (k + 8 * (body.length - 1 - j))) +
            (body.getD j 0 ^^^ 2 ^ k) * 256 ^ (body.length - 1 - j) := by
        rw [← hset, hgetD, ← hW2]
        ring
      exact Nat.add_right_cancel h1
    have hnum : tagNumerator key nonce body =
        tagNumerator key nonce (body.set j (body.getD j 0 ^^^ 2 ^ k)) +
          2 ^ (k + 8 * (body.length - 1 - j)) := by
      unfold tagNumerator
      rw [hS, hlen]
      ring
    rw [hnum]
    exact (tag_move _ _).symm

/-- C3: flipping any single bit of a ciphertext produced by `Encrypt`
makes `Decrypt` with the same password/nonce/salt fail with the generic
decryption-failure error (never succeed with different plaintext). -/
theorem claim_C3_tamper (pt password nonce salt ct : Bytes) (i : Nat)
    (hbytes : ∀ b ∈ pt, b < 256)
    (henc : Encrypt pt password nonce salt = .ok ct)
    (hi : i < 8 * ct.length) :
    Decrypt (flipBit ct i) password nonce salt = .error .decryptionFailed := by
  unfold Encrypt at henc
  by_cases hpt0 : pt.length = 0
  · rw [if_pos hpt0] at henc
    exact absurd henc (by simp)
  rw [if_neg hpt0] at henc
  by_cases hns : nonce.length < gcmNonceSize
  · rw [if_pos hns] at henc
    exact absurd henc (by simp)
  rw [if_neg hns] at henc
  injection henc with henc
  set key := deriveKey password salt with hkey
  set n12 := nonce.take gcmNonceSize with hn12
  set body := ctrXor key n12 0 pt with hbodydef
  set T := tagNat key n12 body with hTdef
  set tagB := natToBytesBE gcmTagSize T with htagBdef
  have hct : ct = body ++ tagB := by
    rw [← henc]
    rfl
  subst hct
  have hbl : body.length = pt.length := ctrXor_length _ _ _ _
  have htl : tagB.length = gcmTagSize := natToBytesBE_length _ _
  have htag16 : (0 : Nat) < gcmTagSize := by
    rw [gcmTagSize]
    norm_num
  have hctlen : (body ++ tagB).length = pt.length + gcmTagSize := by
    rw [List.length_append, hbl, htl]
  have hbodybytes : ∀ b ∈ body, b < 256 :=
    ctrXor_bytes_lt _ _ _ _ hbytes
  have htagbytes : ∀ b ∈ tagB, b < 256 := natToBytesBE_bytes_lt _ _
  have hjlt : i / 8 < pt.length + gcmTagSize := by omega
  have hklt : i % 8 < 8 := Nat.mod_lt _ (by norm_num)
  have hflen : (flipBit (body ++ tagB) i).length = pt.length + gcmTagSize := by
    rw [flipBit, List.length_set, hctlen]
  have hTbound : T < 256 ^ gcmTagSize := by
    have h1 : T < tagModulus := hTdef ▸ tagNat_lt key n12 body
    have h2 : tagModulus < 256 ^ gcmTagSize := by
      rw [gcmTagSize]
      exact tagModulus_lt
    omega
  suffices hopen : gcmOpen key n12 (flipBit (body ++ tagB) i) = none by
    unfold Decrypt
    rw [if_neg (by omega), if_neg hns, hopen]
  by_cases hcase : i / 8 < pt.length
  · -- the flipped bit lies in the ciphertext body
    have hjb : i / 8 < body.length := by omega
    have hgetD : (body ++ tagB).getD (i / 8) 0 = body.getD (i / 8) 0 :=
      List.getD_append _ _ _ _ hjb
    have hflip : flipBit (body ++ tagB) i =
        body.set (i / 8) (body.getD (i / 8) 0 ^^^ 2 ^ (i % 8)) ++ tagB := by
      rw [flipBit, hgetD, List.set_append_left _ _ hjb]
    rw [hflip]
    have hsl : (body.set (i / 8) (body.getD (i / 8) 0 ^^^ 2 ^ (i % 8))).length
        = pt.length := by
      rw [List.length_set, hbl]
    have halen : (body.set (i / 8) (body.getD (i / 8) 0 ^^^ 2 ^ (i % 8)) ++ tagB).length
        = pt.length + gcmTagSize := by
      rw [List.length_append, hsl, htl]
    have hsub : pt.length + gcmTagSize - gcmTagSize = pt.length := by omega
    have hTne := tagNat_set_ne key n12 body (i / 8) (i % 8) hjb hklt hbodybytes
    have hne : ¬ tagB = natToBytesBE gcmTagSize
        (tagNat key n12 (body.set (i / 8) (body.getD (i / 8) 0 ^^^ 2 ^ (i % 8)))) := by
      intro heq
      rw [htagBdef] at heq
      have hT'bound : tagNat key n12
          (body.set (i / 8) (body.getD (i / 8) 0 ^^^ 2 ^ (i % 8))) < 256 ^ gcmTagSize := by
        have h1 := tagNat_lt key n12
          (body.set (i / 8) (body.getD (i / 8) 0 ^^^ 2 ^ (i % 8)))
        have h2 : tagModulus < 256 ^ gcmTagSize := by
          rw [gcmTagSize]
          exact tagModulus_lt
        omega
      have := natToBytesBE_inj hTbound hT'bound heq
      rw [hTdef] at this
      exact hTne this.symm
    unfold gcmOpen
    simp only
    rw [halen, if_neg (by omega), hsub, List.take_left' hsl, List.drop_left' hsl,
      if_neg hne]
  · -- the flipped bit lies in the authentication tag
    have hge : body.length ≤ i / 8 := by omega
    have hidxlt : i / 8 - body.length < tagB.length := by omega
    have hgetD : (body ++ tagB).getD (i / 8) 0 = tagB.getD (i / 8 - body.length) 0 :=
      List.getD_append_right _ _ _ _ hge
    have hflip : flipBit (body ++ tagB) i =
        body ++ tagB.set (i / 8 - body.length)
          (tagB.getD (i / 8 - body.length) 0 ^^^ 2 ^ (i % 8)) := by
      rw [flipBit, hgetD, List.set_append_right _ _ hge]
    rw [hflip]
    have hstl : (tagB.set (i / 8 - body.length)
        (tagB.getD (i / 8 - body.length) 0 ^^^ 2 ^ (i % 8))).length = gcmTagSize := by
      rw [List.length_set, htl]
    have halen : (body ++ tagB.set (i / 8 - body.length)
        (tagB.getD (i / 8 - body.length) 0 ^^^ 2 ^ (i % 8))).length
        = pt.length + gcmTagSize := by
      rw [List.length_append, hstl, hbl]
    have hsub : pt.length + gcmTagSize - gcmTagSize = pt.length := by omega
    have holdlt : tagB.getD (i / 8 - body.length) 0 < 256 := by
      rw [List.getD_eq_getElem tagB 0 hidxlt]
      exact htagbytes _ (List.getElem_mem hidxlt)
    have hfacts := xor_byte_facts' holdlt hklt
    have hne : ¬ tagB.set (i / 8 - body.length)
        (tagB.getD (i / 8 - body.length) 0 ^^^ 2 ^ (i % 8)) =
        natToBytesBE gcmTagSize (tagNat key n12 body) := by
      rw [← hTdef, ← htagBdef]
      intro heq
      have hget := congrArg (fun l => l.getD (i / 8 - body.length) 0) heq
      simp only at hget
      rw [getD_set_self hidxlt] at hget
      exact hfacts.2.2 hget
    unfold gcmOpen
    simp only
    rw [halen, if_neg (by omega), hsub, List.take_left' hbl, List.drop_left' hbl,
      if_neg hne]

/-- Witness for C3: flipping bit 0 of a concrete 17-byte ciphertext of
`Encrypt` makes `Decrypt` fail with the generic error. -/
theorem claim_C3_witness :
    Decrypt (flipBit
        [87, 116, 217, 61, 166, 64, 165, 9, 110, 210, 54, 154, 255, 99, 200, 44, 157] 0)
      [] (List.replicate 16 98) [] = .error .decryptionFailed :=
  claim_C3_tamper [104] [] (List.replicate 16 98) []
    [87, 116, 217, 61, 166, 64, 165, 9, 110, 210, 54, 154, 255, 99, 200, 44, 157] 0
    (by decide) (by rfl) (by decide)

end Crypto

namespace Storage

/-- Go `Secret` represents a stored encrypted secret with timestamp
(`Timestamp` is Unix milliseconds, `Encrypted` the base64 text as a Go
string). -/
structure Secret where
  timestamp : Int
  encrypted : Bytes
  deriving DecidableEq, Repr

/-- The byte values of the standard base64 alphabet `A…Za…z0…9+/`. -/
def base64Alphabet : Bytes :=
  (List.range 26).map (fun i => 65 + i) ++
    (List.range 26).map (fun i => 97 + i) ++
    (List.range 10).map (fun i => 48 + i) ++ [43, 47]

/-- Modelled from the spec: `base64.StdEncoding.EncodeToString`
(`encoding/base64`, not part of this repository) — standard base64 with
`=` padding. -/
def base64Encode : Bytes → Bytes
  | [] => []
  | [b1] =>
    let n := b1 * 65536
    [base64Alphabet.getD (n / 262144 % 64) 0, base64Alphabet.getD (n / 4096 % 64) 0,
      61, 61]
  | [b1, b2] =>
    let n := b1 * 65536 + b2 * 256
    [base64Alphabet.getD (n / 262144 % 64) 0, base64Alphabet.getD (n / 4096 % 64) 0,
      base64Alphabet.getD (n / 64 % 64) 0, 61]
  | b1 :: b2 :: b3 :: rest =>
    let n := b1 * 65536 + b2 * 256 + b3
    [base64Alphabet.getD (n / 262144 % 64) 0, base64Alphabet.getD (n / 4096 % 64) 0,
      base64Alphabet.getD (n / 64 % 64) 0, base64Alphabet.getD (n % 64) 0] ++
      base64Encode rest

/-- Modelled from the spec: a stored bucket value as seen through
`encoding/json` (library code outside this repository, modelled at the
interface the storage layer uses): either bytes that `json.Unmarshal`
decodes into exactly the `Secret` carried here (the output of
`json.Marshal` of that `Secret`, or any other equivalent document), or
bytes on which `json.Unmarshal` fails. -/
inductive Payload where
  | json (s : Secret)
  | malformed (raw : Bytes)
  deriving DecidableEq, Repr

/-- Go `json.Unmarshal` of a stored value into a `Secret`. -/
def unmarshal : Payload → Option Secret
  | .json s => some s
  | .malformed _ => none

/-- The contents of the `secrets` bucket: an association of keys to stored
values (a BoltDB bucket; its key order is irrelevant to these claims). -/
abbrev Bucket := List (Bytes × Payload)

/-- The database as the storage layer sees it: `none` when the `secrets`
bucket does not exist (`InitBucket` never ran). -/
abbrev DB := Option Bucket

/-- The storage error values: the `bucket not found` sentinel and the
`json.Unmarshal` error that `Retrieve` propagates. -/
inductive StorageErr where
  | bucketNotFound
  | unmarshalFailed
  deriving DecidableEq, Repr

/-- Bolt `b.Get`: the value stored under `k`, if any. -/
def bGet : Bucket → Bytes → Option Payload
  | [], _ => none
  | (k', v) :: rest, k => if k' = k then some v else bGet rest k

/-- Bolt `b.Put`: store `v` under `k`, overwriting any existing record. -/
def bPut : Bucket → Bytes → Payload → Bucket
  | [], k, v => [(k, v)]
  | (k', v') :: rest, k, v =>
    if k' = k then (k, v) :: rest else (k', v') :: bPut rest k v

/-- Bolt `b.Delete`: remove the record under `k`; removing an absent key leaves
the bucket unchanged (and is not an error in BoltDB). -/
def bDelete : Bucket → Bytes → Bucket
  | [], _ => []
  | (k', v) :: rest, k =>
    if k' = k then bDelete rest k else (k', v) :: bDelete rest k

/-- Go `InitBucket`: create the secrets bucket if it does not exist. -/
def InitBucket (db : DB) : DB :=
  some (db.getD [])

/-- Go `Store`: wrap the ciphertext with the current timestamp, marshal, and
put under `key`; fails with `bucketNotFound` when the bucket is missing. -/
def Store (db : DB) (now : Int) (key : Bytes) (encrypted : Bytes) :
    Except StorageErr DB :=
  match db with
  | none => .error .bucketNotFound
  | some b => .ok (some (bPut b key (.json ⟨now, base64Encode encrypted⟩)))

/-- Go `Retrieve`: non-destructive read.  A missing bucket errors; a missing
key yields `none`; a stored value that fails to unmarshal propagates the
unmarshal error; a record unmarshalling to the zero `Secret` is reported
as `none` (the source's zero-value check). -/
def Retrieve (db : DB) (key : Bytes) : Except StorageErr (Option Secret) :=
  match db with
  | none => .error .bucketNotFound
  | some b =>
    match bGet b key with
    | none => .ok none
    | some p =>
      match unmarshal p with
      | none => .error .unmarshalFailed
      | some s =>
        if s.timestamp = 0 ∧ s.encrypted = [] then .ok none else .ok (some s)

/-- Go `Delete`: the burn operation; removes the record unconditionally. -/
def Delete (db : DB) (key : Bytes) : Except StorageErr DB :=
  match db with
  | none => .error .bucketNotFound
  | some b => .ok (some (bDelete b key))

/-- Go int64 two's-complement wraparound, applied after every `int64`
(and `time.Duration`) arithmetic step. -/
def wrap64 (x : Int) : Int :=
  (x + 2 ^ 63) % 2 ^ 64 - 2 ^ 63

/-- The duration `time.Duration(-ttlDays) * 24 * time.Hour` in nanoseconds:
each multiplication is int64 arithmetic and wraps (`time.Hour` is
3.6e12 ns). -/
def durationNs (ttlDays : Int) : Int :=
  wrap64 (wrap64 (wrap64 (-ttlDays) * 24) * 3600000000000)

/-- The cutoff `time.Now().Add(time.Duration(-ttlDays) * 24 *
time.Hour).UnixMilli()`: the sweep-time clock reading `nowNs` (nanoseconds
since the Unix epoch) shifted by the (possibly wrapped) duration, floored
to milliseconds (`UnixMilli` of a normalized `time.Time`). -/
def cutoffMillis (nowNs ttlDays : Int) : Int :=
  (nowNs + durationNs ttlDays).fdiv 1000000

/-- Whether a stored value is deserializable and older than the cutoff
(the collection condition of `DeleteExpired`; values that fail to
unmarshal are skipped). -/
def expiredP (cutoff : Int) (p : Payload) : Bool :=
  match unmarshal p with
  | some s => s.timestamp < cutoff
  | none => false

/-- Go `DeleteExpired`: collect the keys of deserializable records older than
the cutoff, then delete them, returning the number removed. -/
def DeleteExpired (db : DB) (nowNs ttlDays : Int) :
    Except StorageErr (Nat × DB) :=
  match db with
  | none => .error .bucketNotFound
  | some b =>
    let cutoff := cutoffMillis nowNs ttlDays
    let keysToDelete := (b.filter (fun e => expiredP cutoff e.2)).map Prod.fst
    let bNew := keysToDelete.foldl (fun acc k => bDelete acc k) b
    .ok (keysToDelete.length, some bNew)

theorem wrap64_eq_self {x : Int} (h1 : -9223372036854775808 ≤ x)
    (h2 : x < 9223372036854775808) : wrap64 x = x := by
  unfold wrap64
  have hp63 : (2 : Int) ^ 63 = 9223372036854775808 := by norm_num
  have hp64 : (2 : Int) ^ 64 = 18446744073709551616 := by norm_num
  rw [hp63, hp64, Int.emod_eq_of_lt (by omega) (by omega)]
  omega

theorem durationNs_eq {ttl : Int} (httl : ttl.natAbs ≤ 106751) :
    durationNs ttl = -ttl * 86400000000000 := by
  have hb : -106751 ≤ ttl ∧ ttl ≤ 106751 := by omega
  unfold durationNs
  have h1 : wrap64 (-ttl) = -ttl := wrap64_eq_self (by omega) (by omega)
  rw [h1]
  have h2 : wrap64 (-ttl * 24) = -ttl * 24 := wrap64_eq_self (by omega) (by omega)
  rw [h2]
  have h3 : wrap64 (-ttl * 24 * 3600000000000) = -ttl * 24 * 3600000000000 :=
    wrap64_eq_self (by omega) (by omega)
  rw [h3]
  ring

theorem cutoffMillis_eq {nowNs ttl : Int} (httl : ttl.natAbs ≤ 106751) :
    cutoffMillis nowNs ttl = nowNs.fdiv 1000000 - ttl * 86400000 := by
  unfold cutoffMillis
  rw [durationNs_eq httl]
  have h : nowNs + -ttl * 86400000000000 = nowNs + -ttl * 86400000 * 1000000 := by
    ring
  rw [h, Int.fdiv_eq_ediv _ (by norm_num), Int.fdiv_eq_ediv _ (by norm_num),
    Int.add_mul_ediv_right _ _ (by norm_num : (1000000 : Int) ≠ 0)]
  ring

theorem bGet_bDelete (b : Bucket) (k : Bytes) : bGet (bDelete b k) k = none := by
  induction b with
  | nil => rfl
  | cons e rest ih =>
    obtain ⟨k', v⟩ := e
    by_cases h : k' = k
    · rw [bDelete, if_pos h]
      exact ih
    · rw [bDelete, if_neg h, bGet, if_neg h]
      exact ih

theorem bDelete_idem (b : Bucket) (k : Bytes) :
    bDelete (bDelete b k) k = bDelete b k := by
  induction b with
  | nil => rfl
  | cons e rest ih =>
    obtain ⟨k', v⟩ := e
    by_cases h : k' = k
    · rw [bDelete, if_pos h, ih]
    · rw [bDelete, if_neg h, bDelete, if_neg h, ih]

/-- C4: on an initialized store, `Store(k, c)` then `Delete(k)` makes
`Retrieve(k)` report not-found, and a second `Delete(k)` (a key with no
record) succeeds and changes nothing — `Delete` is idempotent. -/
theorem claim_C4_burn_idempotent (b : Bucket) (now : Int) (k c : Bytes) :
    ∃ b1 b2 : Bucket,
      Store (some b) now k c = .ok (some b1) ∧
      Delete (some b1) k = .ok (some b2) ∧
      Retrieve (some b2) k = .ok none ∧
      Delete (some b2) k = .ok (some b2) := by
  refine ⟨bPut b k (.json ⟨now, base64Encode c⟩),
    bDelete (bPut b k (.json ⟨now, base64Encode c⟩)) k, rfl, rfl, ?_, ?_⟩
  · simp only [Retrieve, bGet_bDelete]
  · simp only [Delete, bDelete_idem]

/-- C5 counterexample: a stored value that `json.Unmarshal` rejects makes
`Retrieve` return the unmarshal error, which is not `bucketNotFound` —
so `bucketNotFound` is not the only error `Retrieve` can return. -/
theorem claim_C5_counterexample :
    Retrieve (some [([107], Payload.malformed [123])]) [107] =
        .error .unmarshalFailed ∧
      StorageErr.unmarshalFailed ≠ StorageErr.bucketNotFound := by
  exact ⟨rfl, by decide⟩

/-- C5 (amended): `Retrieve` returns `nil` with no error when no record
exists under the key; its only errors are `bucketNotFound` (exactly when
the bucket was never initialized) and the propagated deserialization
error when the stored value under the key fails to unmarshal. -/
theorem claim_C5_amended_retrieve (db : DB) (k : Bytes) :
    (∀ b : Bucket, db = some b → bGet b k = none → Retrieve db k = .ok none) ∧
      (∀ e, Retrieve db k = .error e →
        (db = none ∧ e = .bucketNotFound) ∨
          (∃ (b : Bucket) (p : Payload), db = some b ∧ bGet b k = some p ∧
            unmarshal p = none ∧ e = .unmarshalFailed)) := by
  constructor
  · rintro b rfl hget
    simp only [Retrieve, hget]
  · intro e he
    match db with
    | none =>
      refine Or.inl ⟨rfl, ?_⟩
      simp only [Retrieve] at he
      injection he with he
      exact he.symm
    | some b =>
      refine Or.inr ?_
      simp only [Retrieve] at he
      rcases hget : bGet b k with _ | p
      · simp only [hget] at he
        exact absurd he (by simp)
      · simp only [hget] at he
        rcases hum : unmarshal p with _ | s
        · simp only [hum] at he
          injection he with he
          exact ⟨b, p, rfl, hget, hum, he.symm⟩
        · simp only [hum] at he
          split at he
          · exact absurd he (by simp)
          · exact absurd he (by simp)

/-- Witness for C5 (amended): an initialized empty bucket reports
not-found without error, and an uninitialized store errors with
`bucketNotFound`. -/
theorem claim_C5_witness :
    Retrieve (some []) [1] = .ok none ∧
      ((none : DB) = none ∧ StorageErr.bucketNotFound = .bucketNotFound) := by
  refine ⟨(claim_C5_amended_retrieve (some []) [1]).1 [] rfl rfl, ?_⟩
  have h := (claim_C5_amended_retrieve none [1]).2 .bucketNotFound rfl
  rcases h with ⟨h1, h2⟩ | ⟨b, p, hb, _⟩
  · exact ⟨h1, h2⟩
  · exact absurd hb (by simp)

/-- C10: a physically present record whose payload deserializes to the
zero `Secret` (timestamp 0 and empty encrypted text) is reported by
`Retrieve` exactly like a record that never existed: `nil` with no
error. -/
theorem claim_C10_zero_secret (b : Bucket) (k : Bytes)
    (h : bGet b k = some (Payload.json ⟨0, []⟩)) :
    Retrieve (some b) k = .ok none ∧
      Retrieve (some b) k = Retrieve (some []) k := by
  have h1 : Retrieve (some b) k = .ok none := by
    simp only [Retrieve, h, unmarshal]
    rfl
  exact ⟨h1, h1⟩

theorem bDelete_eq_filter (b : Bucket) (k : Bytes) :
    bDelete b k = b.filter (fun e => !decide (e.1 = k)) := by
  induction b with
  | nil => rfl
  | cons e rest ih =>
    obtain ⟨k', v⟩ := e
    by_cases h : k' = k
    · rw [bDelete, if_pos h, ih, List.filter_cons]
      simp [h]
    · rw [bDelete, if_neg h, ih, List.filter_cons]
      simp [h]

theorem foldl_bDelete_filter (ks : List Bytes) (b : Bucket) :
    ks.foldl (fun acc k => bDelete acc k) b =
      b.filter (fun e => !decide (e.1 ∈ ks)) := by
  induction ks generalizing b with
  | nil =>
    simp only [List.foldl_nil]
    have h : (fun e : Bytes × Payload => !decide (e.1 ∈ ([] : List Bytes))) =
        fun _ => true := by
      funext e
      simp
    rw [h, List.filter_true]
  | cons k ks ih =>
    rw [List.foldl_cons, ih, bDelete_eq_filter, List.filter_filter]
    apply List.filter_congr
    intro e _
    by_cases h1 : e.1 = k <;> by_cases h2 : e.1 ∈ ks <;>
      simp [h1, h2, List.mem_cons]

theorem eq_of_mem_nodup_keys {b : Bucket} (hnd : (b.map Prod.fst).Nodup)
    {e e' : Bytes × Payload} (he : e ∈ b) (he' : e' ∈ b) (hk : e.1 = e'.1) :
    e = e' := by
  induction b with
  | nil => simp at he
  | cons x rest ih =>
    rw [List.map_cons, List.nodup_cons] at hnd
    rcases List.mem_cons.mp he with rfl | he2 <;>
      rcases List.mem_cons.mp he' with rfl | he2'
    · rfl
    · exact absurd (hk ▸ List.mem_map_of_mem Prod.fst he2') hnd.1
    · exact absurd (hk ▸ List.mem_map_of_mem Prod.fst he2) hnd.1
    · exact ih hnd.2 he2 he2'

theorem mem_of_bGet {b : Bucket} {k : Bytes} {p : Payload}
    (h : bGet b k = some p) : (k, p) ∈ b := by
  induction b with
  | nil => exact absurd h (by simp [bGet])
  | cons e rest ih =>
    obtain ⟨k', v⟩ := e
    by_cases hk : k' = k
    · rw [bGet, if_pos hk] at h
      injection h with h
      subst h
      subst hk
      exact List.mem_cons_self _ _
    · rw [bGet, if_neg hk] at h
      exact List.mem_cons_of_mem _ (ih h)

theorem bGet_none_of_not_mem {b : Bucket} {k : Bytes}
    (h : k ∉ b.map Prod.fst) : bGet b k = none := by
  induction b with
  | nil => rfl
  | cons e rest ih =>
    obtain ⟨k', v⟩ := e
    rw [List.map_cons, List.mem_cons] at h
    push_neg at h
    rw [bGet, if_neg (fun hk => h.1 hk.symm)]
    exact ih h.2

theorem bGet_filter_keep {b : Bucket} {k : Bytes} {p : Payload}
    {q : Bytes × Payload → Bool} (h : bGet b k = some p)
    (hq : q (k, p) = true) : bGet (b.filter q) k = some p := by
  induction b with
  | nil => exact absurd h (by simp [bGet])
  | cons e rest ih =>
    obtain ⟨k', v⟩ := e
    by_cases hk : k' = k
    · rw [bGet, if_pos hk] at h
      injection h with h
      subst h
      subst hk
      rw [List.filter_cons, if_pos (by simpa using hq), bGet, if_pos rfl]
    · rw [bGet, if_neg hk] at h
      rw [List.filter_cons]
      split
      · rw [bGet, if_neg hk]
        exact ih h
      · exact ih h

theorem bGet_filter_drop {b : Bucket} {k : Bytes} {p : Payload}
    {q : Bytes × Payload → Bool} (hnd : (b.map Prod.fst).Nodup)
    (h : bGet b k = some p) (hq : q (k, p) = false) :
    bGet (b.filter q) k = none := by
  induction b with
  | nil => exact absurd h (by simp [bGet])
  | cons e rest ih =>
    obtain ⟨k', v⟩ := e
    rw [List.map_cons, List.nodup_cons] at hnd
    by_cases hk : k' = k
    · rw [bGet, if_pos hk] at h
      injection h with h
      subst h
      subst hk
      rw [List.filter_cons, if_neg (by simp [hq])]
      apply bGet_none_of_not_mem
      intro hmem
      obtain ⟨e', he', hfst⟩ := List.mem_map.mp hmem
      have hb' : e'.1 ∈ rest.map Prod.fst :=
        List.mem_map_of_mem Prod.fst (List.mem_of_mem_filter he')
      rw [hfst] at hb'
      exact hnd.1 hb'
    · rw [bGet, if_neg hk] at h
      rw [List.filter_cons]
      split
      · rw [bGet, if_neg hk]
        exact ih hnd.2 h
      · exact ih hnd.2 h

/-- C6 counterexample: at `maxAgeDays = 200000` the Go duration
`time.Duration(-200000) * 24 * time.Hour` wraps int64 to a large positive
duration, so the cutoff lands far in the future and `DeleteExpired`
deletes a record stored at the very moment of the sweep — although that
record is not older than `now - maxAgeDays` (the exact value), which the
claim says is the deletion criterion for every `maxAgeDays`. -/
theorem claim_C6_counterexample :
    DeleteExpired (some [([107], Payload.json ⟨1700000000000, [65]⟩)])
        1700000000000000000 200000 = .ok (1, some []) ∧
      ¬ (1700000000000 : Int) <
        (1700000000000000000 : Int).fdiv 1000000 - 200000 * 86400000 := by
  exact ⟨rfl, by decide⟩

/-- C6 (amended): on an initialized store with distinct keys, for every
`maxAgeDays` whose duration computation does not overflow int64
(`|maxAgeDays| ≤ 106751` days; beyond that the int64 nanosecond product
wraps and shifts the cutoff arbitrarily), the cutoff equals
`now - maxAgeDays` in milliseconds, and `DeleteExpired` removes exactly
the deserializable records strictly older than it, skips records whose
stored payload fails to deserialize, returns the number actually removed,
and leaves every record at or newer than the cutoff retrievable with an
unchanged `Retrieve` result. -/
theorem claim_C6_deleteExpired (b : Bucket) (nowNs ttl : Int)
    (hnd : (b.map Prod.fst).Nodup) (httl : ttl.natAbs ≤ 106751) :
    cutoffMillis nowNs ttl = nowNs.fdiv 1000000 - ttl * 86400000 ∧
    ∃ (n : Nat) (bNew : Bucket),
      DeleteExpired (some b) nowNs ttl = .ok (n, some bNew) ∧
      n = (b.filter (fun e => expiredP (cutoffMillis nowNs ttl) e.2)).length ∧
      bNew = b.filter (fun e => !expiredP (cutoffMillis nowNs ttl) e.2) ∧
      (∀ k p, bGet b k = some p → expiredP (cutoffMillis nowNs ttl) p = false →
        bGet bNew k = some p ∧ Retrieve (some bNew) k = Retrieve (some b) k) ∧
      (∀ k p, bGet b k = some p → expiredP (cutoffMillis nowNs ttl) p = true →
        bGet bNew k = none) := by
  have hD : DeleteExpired (some b) nowNs ttl =
      .ok (((b.filter (fun e => expiredP (cutoffMillis nowNs ttl) e.2)).map
          Prod.fst).length,
        some (((b.filter (fun e => expiredP (cutoffMillis nowNs ttl) e.2)).map
          Prod.fst).foldl (fun acc k => bDelete acc k) b)) := rfl
  refine ⟨cutoffMillis_eq httl,
    ((b.filter (fun e => expiredP (cutoffMillis nowNs ttl) e.2)).map Prod.fst).length,
    ((b.filter (fun e => expiredP (cutoffMillis nowNs ttl) e.2)).map Prod.fst).foldl
      (fun acc k => bDelete acc k) b, hD, List.length_map _ _, ?_, ?_, ?_⟩
  · rw [foldl_bDelete_filter]
    apply List.filter_congr
    intro e he
    have hiff : e.1 ∈ (b.filter (fun x => expiredP (cutoffMillis nowNs ttl) x.2)).map
        Prod.fst ↔ expiredP (cutoffMillis nowNs ttl) e.2 = true := by
      constructor
      · intro hm
        obtain ⟨e', he', hfst⟩ := List.mem_map.mp hm
        have hbe' : e' ∈ b := List.mem_of_mem_filter he'
        have hexp' : expiredP (cutoffMillis nowNs ttl) e'.2 = true :=
          (List.mem_filter.mp he').2
        have : e' = e := eq_of_mem_nodup_keys hnd hbe' he hfst
        rwa [this] at hexp'
      · intro hexp
        exact List.mem_map_of_mem Prod.fst (List.mem_filter.mpr ⟨he, hexp⟩)
    by_cases hm : e.1 ∈ (b.filter (fun x => expiredP (cutoffMillis nowNs ttl) x.2)).map
        Prod.fst
    · simp [hm, hiff.mp hm]
    · rcases hexp : expiredP (cutoffMillis nowNs ttl) e.2 with _ | _
      · simp [hm]
      · exact absurd (hiff.mpr hexp) hm
  · intro k p hget hexp
    have hknotin : k ∉ (b.filter (fun e => expiredP (cutoffMillis nowNs ttl) e.2)).map
        Prod.fst := by
      intro hm
      obtain ⟨e', he', hfst⟩ := List.mem_map.mp hm
      have hbe' : e' ∈ b := List.mem_of_mem_filter he'
      have hexp' : expiredP (cutoffMillis nowNs ttl) e'.2 = true :=
        (List.mem_filter.mp he').2
      have heq : e' = (k, p) := eq_of_mem_nodup_keys hnd hbe' (mem_of_bGet hget) hfst
      rw [heq] at hexp'
      exact absurd hexp' (by simp [hexp])
    have h1 : bGet (((b.filter (fun e => expiredP (cutoffMillis nowNs ttl) e.2)).map
        Prod.fst).foldl (fun acc k => bDelete acc k) b) k = some p := by
      rw [foldl_bDelete_filter]
      exact bGet_filter_keep hget (by simp [hknotin])
    refine ⟨h1, ?_⟩
    simp only [Retrieve, h1, hget]
  · intro k p hget hexp
    rw [foldl_bDelete_filter]
    have hkin : k ∈ (b.filter (fun e => expiredP (cutoffMillis nowNs ttl) e.2)).map
        Prod.fst :=
      List.mem_map_of_mem Prod.fst (List.mem_filter.mpr ⟨mem_of_bGet hget, hexp⟩)
    exact bGet_filter_drop hnd hget (by simp [hkin])

/-- Witness for C6: a record stored 48 simulated hours ago and one stored
now; `DeleteExpired(1)` removes exactly the old one and returns count 1,
and the new one stays retrievable. -/
theorem claim_C6_witness :
    DeleteExpired (some [([107, 49], Payload.json ⟨0, [65]⟩),
        ([107, 50], Payload.json ⟨172800000, [66]⟩)]) 172800000000000 1 =
      .ok (1, some [([107, 50], Payload.json ⟨172800000, [66]⟩)]) ∧
      Retrieve (some [([107, 50], Payload.json ⟨172800000, [66]⟩)]) [107, 50] =
        .ok (some ⟨172800000, [66]⟩) := by
  obtain ⟨hcut, n, bNew, h1, h2, h3, _, _⟩ :=
    claim_C6_deleteExpired
      [([107, 49], Payload.json ⟨0, [65]⟩),
        ([107, 50], Payload.json ⟨172800000, [66]⟩)] 172800000000000 1
      (by decide) (by decide)
  have hf : ([([107, 49], Payload.json ⟨0, [65]⟩),
      ([107, 50], Payload.json ⟨172800000, [66]⟩)] : Bucket).filter
        (fun e => !expiredP (cutoffMillis 172800000000000 1) e.2) =
      [([107, 50], Payload.json ⟨172800000, [66]⟩)] := by decide
  have hl : (([([107, 49], Payload.json ⟨0, [65]⟩),
      ([107, 50], Payload.json ⟨172800000, [66]⟩)] : Bucket).filter
        (fun e => expiredP (cutoffMillis 172800000000000 1) e.2)).length = 1 := by
    decide
  rw [h2, hl] at h1
  rw [h3, hf] at h1
  exact ⟨h1, by rfl⟩

/-- Witness for C10: a one-record bucket holding the zero `Secret`. -/
theorem claim_C10_witness :
    Retrieve (some [([107], Payload.json ⟨0, []⟩)]) [107] = .ok none := by
  exact (claim_C10_zero_secret [([107], Payload.json ⟨0, []⟩)] [107] (by decide)).1

end Storage

end ReadBurn
